import Mathlib

/-!
Verification of the CAN-bus transport layer of the asterix repository
(`src/transport/can.rs`): fragment-header codec, CAN-identifier codec,
fragmentation, stateful reassembly, subscriber category filtering, the
publisher send loop and configuration construction.

Modelling conventions:
* `u8`/`u16`/`u32`/`usize` values are `Nat`; truncating casts are written
  as explicit `% 2^w`, and theorems carry `< 256` style hypotheses where
  Rust's types guarantee a bound.
* byte buffers (`Vec<u8>`, `&[u8]`) are `List Nat`;
* `HashMap<u8, V>` is a lookup function `Nat → Option V`, with insertion
  and removal by pointwise update (the only operations the source uses are
  keyed insert, keyed get, keyed remove);
* wall-clock fields (`last_update`, timeouts, sample timestamps) and the
  interface-name field of samples are environment inputs with no bearing on
  the verified claims and are omitted from the state;
* the bus socket is abstracted by an oracle telling, per frame, whether
  `write_frame` succeeds (`none`) or fails with an error message (`some e`).
-/

/-- Constant `CAN_PAYLOAD_SIZE` from can.rs: 8-byte classic frame minus one header byte. -/
def CAN_PAYLOAD_SIZE : Nat := 7

/-- Constant `CANFD_PAYLOAD_SIZE` from can.rs: 64-byte FD frame minus one header byte. -/
def CANFD_PAYLOAD_SIZE : Nat := 63

/-- Constant `DEFAULT_REASSEMBLY_TIMEOUT_MS` from can.rs. -/
def DEFAULT_REASSEMBLY_TIMEOUT_MS : Nat := 1000

/-- Constant `FRAGMENT_LAST_FLAG` from can.rs. -/
def FRAGMENT_LAST_FLAG : Nat := 0x80

/-- Constant `FRAGMENT_INDEX_MASK` from can.rs. -/
def FRAGMENT_INDEX_MASK : Nat := 0x7F

/-- Error enum `CanError` from can.rs (payload strings kept). -/
inductive CanErr
  | InterfaceError (msg : String)
  | SendError (msg : String)
  | ReceiveError (msg : String)
  | FragmentError (msg : String)
  | Timeout
  | ConfigError (msg : String)
deriving DecidableEq

/-- Enum `CanFrameType` from can.rs; `Classic` is the `#[default]` variant. -/
inductive CanFrameType
  | Classic
  | Fd
deriving DecidableEq

/-- Struct `CanConfig` from can.rs. -/
structure CanConfig where
  interface : String
  frame_type : CanFrameType
  reassembly_timeout_ms : Nat
  enable_error_frames : Bool
deriving DecidableEq

/-- `CanConfig::new` from can.rs: rejects an empty interface name, otherwise
fills in the defaults (classic frames, 1000 ms timeout, error frames on). -/
def CanConfig.new (interface : String) : Except CanErr CanConfig :=
  if interface.isEmpty then
    Except.error (CanErr.ConfigError "Interface name cannot be empty")
  else
    Except.ok
      { interface := interface
        frame_type := CanFrameType.Classic
        reassembly_timeout_ms := DEFAULT_REASSEMBLY_TIMEOUT_MS
        enable_error_frames := true }

/-- `CanConfig::with_fd` from can.rs. Note: the source performs no check on
`interface` in this constructor. -/
def CanConfig.with_fd (interface : String) : Except CanErr CanConfig :=
  Except.ok
    { interface := interface
      frame_type := CanFrameType.Fd
      reassembly_timeout_ms := DEFAULT_REASSEMBLY_TIMEOUT_MS
      enable_error_frames := true }

/-- `CanConfig::payload_size` from can.rs. -/
def CanConfig.payload_size (c : CanConfig) : Nat :=
  match c.frame_type with
  | CanFrameType.Classic => CAN_PAYLOAD_SIZE
  | CanFrameType.Fd => CANFD_PAYLOAD_SIZE

/-- `build_can_id` from can.rs: bits [10:8] are the category's high 3 bits,
bits [7:0] the fragment sequence number. Arguments are `u8` values. -/
def build_can_id (category fragment_index : Nat) : Nat :=
  (((category >>> 5) &&& 0x07) <<< 8) ||| fragment_index

/-- `parse_can_id` from can.rs: recovers `(category-high-bits shifted up, fragment)`. -/
def parse_can_id (can_id : Nat) : Nat × Nat :=
  (((can_id >>> 8) &&& 0x07) <<< 5, can_id &&& 0xFF)

/-- `build_fragment_header` from can.rs: index in the low 7 bits, bit 7 is
the is-last flag. -/
def build_fragment_header (fragment_index : Nat) (is_last : Bool) : Nat :=
  if is_last then (fragment_index &&& FRAGMENT_INDEX_MASK) ||| FRAGMENT_LAST_FLAG
  else fragment_index &&& FRAGMENT_INDEX_MASK

/-- `parse_fragment_header` from can.rs. -/
def parse_fragment_header (header : Nat) : Nat × Bool :=
  (header &&& FRAGMENT_INDEX_MASK, (header &&& FRAGMENT_LAST_FLAG) != 0)

/-- Loop body of `fragment_data` from can.rs. One iteration takes
`chunk_size = min remaining payload_size` bytes, prepends the header byte
(with the `u8` fragment counter, which wraps via `% 256`), and advances.
The `fuel` argument is a termination device only: it is consumed once per
emitted fragment, and `fragment_data` supplies `data.length`, which is
enough fuel whenever `payload_size ≥ 1` because every iteration consumes at
least one byte.  (For `payload_size = 0` the source loop never terminates,
so no theorem below concerns that case.) -/
def fragmentGo (payload_size : Nat) : Nat → List Nat → Nat → List (List Nat)
  | _, [], _ => []
  | 0, _ :: _, _ => []
  | fuel + 1, d :: rest, fragment_index =>
    (build_fragment_header (fragment_index % 256)
        (decide (rest.length + 1 ≤ min (rest.length + 1) payload_size))
      :: (d :: rest).take (min (rest.length + 1) payload_size))
      :: fragmentGo payload_size fuel
          (rest.drop (min (rest.length + 1) payload_size - 1))
          ((fragment_index + 1) % 256)

/-- `fragment_data` from can.rs: splits `data` into `[header][payload]`
fragments of at most `payload_size` payload bytes, the fragment counter
starting at 0. The `_category` argument is unused, as in the source. -/
def fragment_data (_category : Nat) (data : List Nat) (payload_size : Nat) : List (List Nat) :=
  fragmentGo payload_size data.length data 0

/-- Keyed insert on the function model of `HashMap<u8, Vec<u8>>`. -/
def insertFrag (m : Nat → Option (List Nat)) (k : Nat) (v : List Nat) :
    Nat → Option (List Nat) :=
  fun j => if j = k then some v else m j

/-- Struct `ReassemblyState` from can.rs. The `expected_next` field is dead
code in the source (`#[allow(dead_code)]`, never read) and `last_update`
is wall-clock time; both are omitted. -/
structure ReassemblyState where
  category : Nat
  fragments : Nat → Option (List Nat)

/-- `ReassemblyState::new` from can.rs. -/
def ReassemblyState.new (category : Nat) : ReassemblyState :=
  { category := category, fragments := fun _ => none }

/-- Body of `ReassemblyState::reassemble`'s scan: concatenate the stored
chunks for the given list of indices, short-circuiting to `none` on the
first missing one. -/
def reassembleAux (m : Nat → Option (List Nat)) : List Nat → Option (List Nat)
  | [] => some []
  | i :: rest =>
    match m i with
    | none => none
    | some d =>
      match reassembleAux m rest with
      | none => none
      | some r => some (d ++ r)

/-- `ReassemblyState::reassemble` from can.rs: concatenation of the chunks
stored at indices `0 ..= last_index`, or `None` if any is missing. -/
def ReassemblyState.reassemble (s : ReassemblyState) (last_index : Nat) :
    Option (List Nat) :=
  reassembleAux s.fragments (List.range (last_index + 1))

/-- `ReassemblyState::add_fragment` from can.rs: store the chunk under its
index, then attempt reassembly only if `is_last` is set. Returns the
updated state together with the optional completed message. -/
def ReassemblyState.add_fragment (s : ReassemblyState) (index : Nat)
    (data : List Nat) (is_last : Bool) : ReassemblyState × Option (List Nat) :=
  let s' : ReassemblyState := { s with fragments := insertFrag s.fragments index data }
  (s', if is_last then s'.reassemble index else none)

/-- Decoded fragment index of a raw frame payload (`data[0]` masked), as
the subscriber computes it. -/
def frameIdx (f : List Nat) : Nat :=
  match f with
  | [] => 0
  | h :: _ => (parse_fragment_header h).1

/-- Decoded is-last flag of a raw frame payload. -/
def frameLast (f : List Nat) : Bool :=
  match f with
  | [] => false
  | h :: _ => (parse_fragment_header h).2

/-- Feed one raw fragment (`[header][payload]` bytes) into a reassembly
state, exactly as `process_frame` does after its header split. An empty
frame is ignored (the subscriber returns before reaching the state). -/
def addFrame (s : ReassemblyState) (f : List Nat) : ReassemblyState × Option (List Nat) :=
  match f with
  | [] => (s, none)
  | h :: payload =>
    s.add_fragment (parse_fragment_header h).1 payload (parse_fragment_header h).2

/-- Feed a sequence of raw fragments into a reassembly state, returning at
the first completed message (as the subscriber's receive loop does), or
`none` when the list is exhausted without completion. -/
def feedAll (s : ReassemblyState) : List (List Nat) → ReassemblyState × Option (List Nat)
  | [] => (s, none)
  | f :: rest =>
    match (addFrame s f).2 with
    | some _ => addFrame s f
    | none => feedAll (addFrame s f).1 rest

/-- Struct `CanSample` from can.rs, minus the wall-clock `timestamp` and the
configuration-supplied `interface` string. -/
structure CanSample where
  category : Nat
  data : List Nat
deriving DecidableEq

/-- Keyed insert on the function model of `HashMap<u8, ReassemblyState>`. -/
def insertState (m : Nat → Option ReassemblyState) (k : Nat) (v : ReassemblyState) :
    Nat → Option ReassemblyState :=
  fun j => if j = k then some v else m j

/-- Keyed removal on the function model of `HashMap<u8, ReassemblyState>`. -/
def removeState (m : Nat → Option ReassemblyState) (k : Nat) :
    Nat → Option ReassemblyState :=
  fun j => if j = k then none else m j

/-- The mutable state of `CanSubscriber` from can.rs (socket and config are
environment handles and are omitted). -/
structure SubscriberState where
  subscribed_categories : List Nat
  reassembly_states : Nat → Option ReassemblyState

/-- A fresh subscriber, as built by `CanSubscriber::new`: empty allow-list,
no reassembly state. -/
def SubscriberState.new : SubscriberState :=
  { subscribed_categories := [], reassembly_states := fun _ => none }

/-- `CanSubscriber::subscribe` from can.rs: push the category onto the
allow-list unless already present. -/
def SubscriberState.subscribe (st : SubscriberState) (category : Nat) : SubscriberState :=
  if st.subscribed_categories.contains category then st
  else { st with subscribed_categories := st.subscribed_categories ++ [category] }

/-- Tail of `CanSubscriber::process_frame` from can.rs, after the category
filter: fetch or create the per-category `ReassemblyState`
(`entry(..).or_insert_with(..)`), add the fragment, and on completion emit
the sample and drop the state. -/
def handleFragment (st : SubscriberState) (category fragment_index : Nat)
    (payload : List Nat) (is_last : Bool) : SubscriberState × Option CanSample :=
  let state :=
    match st.reassembly_states category with
    | some s0 => s0
    | none => ReassemblyState.new category
  match state.add_fragment fragment_index payload is_last with
  | (_, some complete_data) =>
    ({ st with reassembly_states := removeState st.reassembly_states category },
      some { category := category, data := complete_data })
  | (s', none) =>
    ({ st with reassembly_states := insertState st.reassembly_states category s' }, none)

/-- `CanSubscriber::process_frame` from can.rs on a received frame
(`can_id`, data bytes): empty frames are dropped; the header byte is
decoded; the category (high bits recovered from the CAN ID) is checked
against a non-empty allow-list; surviving fragments go to reassembly. -/
def SubscriberState.process_frame (st : SubscriberState) (can_id : Nat)
    (data : List Nat) : SubscriberState × Option CanSample :=
  match data with
  | [] => (st, none)
  | header :: payload =>
    let category := (parse_can_id can_id).1
    if !st.subscribed_categories.isEmpty && !st.subscribed_categories.contains category then
      (st, none)
    else
      handleFragment st category (parse_fragment_header header).1 payload
        (parse_fragment_header header).2

/-- `StandardId::new` of the socketcan crate, as used by `publish_raw`:
accepts a raw value iff it fits in 11 bits (`≤ 0x7FF`). The argument is the
`u16` obtained by the truncating cast `can_id as u16`. -/
def standardIdNew (raw : Nat) : Option Nat :=
  if raw ≤ 0x7FF then some raw else none

/-- Send loop of `CanPublisher::publish_raw` from can.rs over the
enumerated fragment list. The socket is abstracted by `sendOk`: given the
frame's standard id and bytes it yields `none` on success or the error
message of the failed `write_frame`. (`CanFrame::new` is a constructor of
the external socketcan crate and is modelled as total.) Returns the list of
frames actually written, in order, together with the overall result. -/
def publishLoop (sendOk : Nat → List Nat → Option String) (category : Nat) :
    List (Nat × List Nat) → List (Nat × List Nat) × Except CanErr Unit
  | [] => ([], Except.ok ())
  | (idx, frag) :: rest =>
    match standardIdNew (build_can_id category (idx % 256) % 65536) with
    | none => ([], Except.error (CanErr.SendError "Invalid CAN ID"))
    | some std_id =>
      match sendOk std_id frag with
      | some e => ([], Except.error (CanErr.SendError e))
      | none =>
        let r := publishLoop sendOk category rest
        ((std_id, frag) :: r.1, r.2)

/-- `CanPublisher::publish_raw` from can.rs: fragment the data, then send
each fragment with a CAN id built from the category and the (truncated)
enumeration index. -/
def publish_raw (sendOk : Nat → List Nat → Option String) (category : Nat)
    (data : List Nat) (payload_size : Nat) :
    List (Nat × List Nat) × Except CanErr Unit :=
  publishLoop sendOk category ((fragment_data category data payload_size).enum)

/-! Bit-level facts about the codecs. -/

set_option maxRecDepth 4000 in
/-- Header round-trip on 7-bit indices, checked exhaustively. -/
theorem hdr_roundtrip : ∀ j < 128,
    parse_fragment_header (build_fragment_header j false) = (j, false) ∧
    parse_fragment_header (build_fragment_header j true) = (j, true) := by decide

set_option maxRecDepth 8000 in
/-- The is-last bit of a built header decodes back regardless of the index. -/
theorem hdr_flag : ∀ j < 256,
    (parse_fragment_header (build_fragment_header j false)).2 = false ∧
    (parse_fragment_header (build_fragment_header j true)).2 = true := by decide

/-- The `u8` wrap in the fragment counter is invisible below 128. -/
theorem hdr_mod (j : Nat) (b : Bool) (h : j < 256) :
    build_fragment_header (j % 256) b = build_fragment_header j b := by
  rw [Nat.mod_eq_of_lt h]

/-- A built CAN identifier always fits in 11 bits. -/
theorem build_can_id_le (c f : Nat) (hf : f < 256) : build_can_id c f ≤ 0x7FF := by
  have h1 : (c >>> 5) &&& 0x07 ≤ 7 := Nat.and_le_right
  have h2 : ((c >>> 5) &&& 0x07) <<< 8 < 2 ^ 11 := by
    rw [Nat.shiftLeft_eq]
    calc ((c >>> 5) &&& 0x07) * 2 ^ 8 ≤ 7 * 2 ^ 8 := Nat.mul_le_mul_right _ h1
      _ < 2 ^ 11 := by norm_num
  have h3 : f < 2 ^ 11 := lt_of_lt_of_le hf (by norm_num)
  have h4 := Nat.or_lt_two_pow h2 h3
  have h5 : (2 : Nat) ^ 11 = 2048 := by norm_num
  unfold build_can_id
  omega

/-- The decoded category is the stored high bits shifted up by 5, hence a
multiple of 32. -/
theorem parse_can_id_mul32 (can_id : Nat) : (parse_can_id can_id).1 % 32 = 0 := by
  show (((can_id >>> 8) &&& 0x07) <<< 5) % 32 = 0
  rw [Nat.shiftLeft_eq]
  have h : (2 : Nat) ^ 5 = 32 := by norm_num
  rw [h, Nat.mul_mod_left]

/-- C5: for every 8-bit category and 8-bit fragment index the built CAN
identifier is at most 0x7FF, so the `StandardId::new` conversion in
`publish_raw` (applied to the truncating `as u16` cast) succeeds and the
"Invalid CAN ID" error branch is unreachable. -/
theorem claim_C5 (category fragment_index : Nat)
    (_hc : category < 256) (hf : fragment_index < 256) :
    build_can_id category fragment_index ≤ 0x7FF ∧
    standardIdNew (build_can_id category fragment_index % 65536)
      = some (build_can_id category fragment_index) := by
  have hle := build_can_id_le category fragment_index hf
  refine ⟨hle, ?_⟩
  rw [Nat.mod_eq_of_lt (by omega)]
  unfold standardIdNew
  rw [if_pos hle]

/-- Witness for C5 at category 48, fragment index 200. -/
theorem claim_C5_witness :
    build_can_id 48 200 ≤ 0x7FF ∧
    standardIdNew (build_can_id 48 200 % 65536) = some (build_can_id 48 200) :=
  claim_C5 48 200 (by decide) (by decide)

/-- C7: decoding an encoded fragment header returns exactly the original
index (for indices 0..=127) and flag. -/
theorem claim_C7 (i : Nat) (hi : i ≤ 127) (b : Bool) :
    parse_fragment_header (build_fragment_header i b) = (i, b) := by
  have h := hdr_roundtrip i (by omega)
  cases b
  · exact h.1
  · exact h.2

/-- Witness for C7 at index 91, flag true. -/
theorem claim_C7_witness :
    parse_fragment_header (build_fragment_header 91 true) = (91, true) :=
  claim_C7 91 (by decide) true

/-- C2: the category decoded by `parse_can_id` always has its low five bits
zero; consequently a subscriber whose non-empty allow-list holds no
multiple of 32 discards every frame in `process_frame`, leaving its state
untouched and producing no sample. -/
theorem claim_C2 (can_id : Nat) (_h32 : can_id < 2 ^ 32) :
    (parse_can_id can_id).1 % 32 = 0 ∧
    ∀ (st : SubscriberState) (data : List Nat),
      st.subscribed_categories ≠ [] →
      (∀ c ∈ st.subscribed_categories, c % 32 ≠ 0) →
      st.process_frame can_id data = (st, none) := by
  refine ⟨parse_can_id_mul32 can_id, ?_⟩
  intro st data hne hall
  match data with
  | [] => rfl
  | header :: payload =>
    have hmem : (parse_can_id can_id).1 ∉ st.subscribed_categories := fun hm =>
      hall _ hm (parse_can_id_mul32 can_id)
    have hc : st.subscribed_categories.contains (parse_can_id can_id).1 = false := by
      simpa using hmem
    have he : st.subscribed_categories.isEmpty = false := by
      simpa using hne
    simp only [SubscriberState.process_frame, hc, he]
    simp

/-- Witness for C2: identifier 0x348 decodes to category 96; a subscriber
whose sole subscription is category 48 (not a multiple of 32) drops the
frame without touching its state. -/
theorem claim_C2_witness :
    (parse_can_id 0x348).1 % 32 = 0 ∧
    SubscriberState.process_frame
        { subscribed_categories := [48], reassembly_states := fun _ => none } 0x348 [0x80]
      = ({ subscribed_categories := [48], reassembly_states := fun _ => none }, none) :=
  ⟨(claim_C2 0x348 (by norm_num)).1,
   (claim_C2 0x348 (by norm_num)).2 _ [0x80] (by decide) (by decide)⟩

/-- C8: with a non-empty allow-list, a frame whose decoded category is not
allowed is dropped by `process_frame` with the subscriber state unchanged
and no sample; with an empty allow-list no frame is dropped by the filter —
processing proceeds to the reassembly stage; and `subscribe c` on a fresh
subscriber makes `[c]` the allow-list. -/
theorem claim_C8 (st : SubscriberState) (can_id header : Nat) (payload : List Nat) :
    (st.subscribed_categories ≠ [] →
      (parse_can_id can_id).1 ∉ st.subscribed_categories →
      st.process_frame can_id (header :: payload) = (st, none)) ∧
    (st.subscribed_categories = [] →
      st.process_frame can_id (header :: payload)
        = handleFragment st (parse_can_id can_id).1 (parse_fragment_header header).1
            payload (parse_fragment_header header).2) ∧
    (∀ c, (SubscriberState.new.subscribe c).subscribed_categories = [c]) := by
  refine ⟨?_, ?_, ?_⟩
  · intro hne hmem
    have hc : st.subscribed_categories.contains (parse_can_id can_id).1 = false := by
      simpa using hmem
    have he : st.subscribed_categories.isEmpty = false := by
      simpa using hne
    simp only [SubscriberState.process_frame, hc, he]
    simp
  · intro hempty
    simp [SubscriberState.process_frame, hempty]
  · intro c
    simp [SubscriberState.subscribe, SubscriberState.new]

/-- Witness for C8: with allow-list `[48]`, identifier 0x248 decodes to
category 64 and the frame is dropped; a fresh subscriber that subscribes
to 48 has allow-list `[48]`. -/
theorem claim_C8_witness :
    SubscriberState.process_frame
        { subscribed_categories := [48], reassembly_states := fun _ => none } 0x248 [3, 7]
      = ({ subscribed_categories := [48], reassembly_states := fun _ => none }, none) ∧
    (SubscriberState.new.subscribe 48).subscribed_categories = [48] :=
  ⟨(claim_C8 { subscribed_categories := [48], reassembly_states := fun _ => none }
      0x248 3 [7]).1 (by decide) (by decide),
   (claim_C8 SubscriberState.new 0 0 []).2.2 48⟩

/-- C10 counterexample: the CAN FD constructor accepts an empty interface
name, contradicting the claim that both constructors reject it eagerly. -/
theorem claim_C10_counterexample :
    CanConfig.with_fd "" = Except.ok
      { interface := "", frame_type := CanFrameType.Fd,
        reassembly_timeout_ms := 1000, enable_error_frames := true } := rfl

/-- C10 (amended): `CanConfig::new` rejects an empty interface name with a
`ConfigError` and any configuration it returns has a non-empty name, but
`CanConfig::with_fd` performs no validation and succeeds even with an empty
name. -/
theorem claim_C10_amended (s : String) :
    (s = "" →
      CanConfig.new s = Except.error (CanErr.ConfigError "Interface name cannot be empty")) ∧
    (∀ cfg, CanConfig.new s = Except.ok cfg → cfg.interface ≠ "") ∧
    (∃ cfg, CanConfig.with_fd s = Except.ok cfg ∧ cfg.interface = s) := by
  refine ⟨?_, ?_, ?_⟩
  · intro h
    subst h
    rfl
  · intro cfg h hemp
    unfold CanConfig.new at h
    by_cases he : s.isEmpty
    · rw [if_pos he] at h
      exact absurd h (by simp)
    · rw [if_neg he] at h
      have hif : cfg.interface = s := by
        cases h
        rfl
      rw [hif] at hemp
      rw [hemp] at he
      exact he (by decide)
  · exact ⟨_, rfl, rfl⟩

/-- Witness for C10 (amended): the classic constructor rejects the empty
name; `with_fd` succeeds on "vcan0". -/
theorem claim_C10_witness :
    CanConfig.new "" = Except.error (CanErr.ConfigError "Interface name cannot be empty") ∧
    (∃ cfg, CanConfig.with_fd "vcan0" = Except.ok cfg ∧ cfg.interface = "vcan0") :=
  ⟨(claim_C10_amended "").1 rfl, (claim_C10_amended "vcan0").2.2⟩

/-! Fragment count and is-last placement. -/

/-- With positive chunk size and enough fuel, the fragmentation loop emits
exactly ceiling(length / payload_size) fragments. -/
theorem fragmentGo_length (ps : Nat) (hps : 1 ≤ ps) :
    ∀ (fuel : Nat) (l : List Nat) (i : Nat), l.length ≤ fuel →
      (fragmentGo ps fuel l i).length = (l.length + ps - 1) / ps := by
  intro fuel
  induction fuel with
  | zero =>
    intro l i hl
    match l with
    | [] =>
      have h0 : (0 + ps - 1) / ps = 0 := Nat.div_eq_of_lt (by omega)
      simpa [fragmentGo] using h0.symm
    | d :: rest => simp at hl
  | succ f ih =>
    intro l i hl
    match l with
    | [] =>
      have h0 : (0 + ps - 1) / ps = 0 := Nat.div_eq_of_lt (by omega)
      simpa [fragmentGo] using h0.symm
    | d :: rest =>
      have hdl : (rest.drop (min (rest.length + 1) ps - 1)).length ≤ f := by
        simp only [List.length_drop]
        simp at hl
        omega
      have hrec := ih (rest.drop (min (rest.length + 1) ps - 1)) ((i + 1) % 256) hdl
      simp only [fragmentGo, List.length_cons, hrec, List.length_drop]
      rcases le_or_lt (rest.length + 1) ps with hle | hgt
      · have hcs : min (rest.length + 1) ps = rest.length + 1 := Nat.min_eq_left hle
        rw [hcs]
        have h1 : (rest.length - (rest.length + 1 - 1) + ps - 1) / ps = 0 :=
          Nat.div_eq_of_lt (by omega)
        have h2 : (rest.length + 1 + ps - 1) / ps = 1 :=
          Nat.div_eq_of_lt_le (by omega) (by omega)
        omega
      · have hcs : min (rest.length + 1) ps = ps := Nat.min_eq_right (Nat.le_of_lt hgt)
        rw [hcs]
        have h1 : rest.length - (ps - 1) + ps - 1 = rest.length := by omega
        have h2 : rest.length + 1 + ps - 1 = rest.length + ps := by omega
        rw [h1, h2, Nat.add_div_right _ (by omega)]

/-- The decoded is-last flag is true on the final fragment and false on all
others, for any payload and any positive chunk size. -/
theorem fragmentGo_flags (ps : Nat) (hps : 1 ≤ ps) :
    ∀ (fuel : Nat) (l : List Nat) (i : Nat), l.length ≤ fuel → l ≠ [] →
      (fragmentGo ps fuel l i).map frameLast
        = List.replicate ((l.length + ps - 1) / ps - 1) false ++ [true] := by
  intro fuel
  induction fuel with
  | zero =>
    intro l i hl hne
    match l with
    | [] => exact absurd rfl hne
    | d :: rest => simp at hl
  | succ f ih =>
    intro l i hl hne
    match l with
    | [] => exact absurd rfl hne
    | d :: rest =>
      have hflag := hdr_flag (i % 256) (Nat.mod_lt i (by omega))
      rcases le_or_lt (rest.length + 1) ps with hle | hgt
      · have hcs : min (rest.length + 1) ps = rest.length + 1 := Nat.min_eq_left hle
        have h2 : (rest.length + 1 + ps - 1) / ps = 1 :=
          Nat.div_eq_of_lt_le (by omega) (by omega)
        have hb : decide (rest.length + 1 ≤ min (rest.length + 1) ps) = true := by
          rw [hcs]
          simp
        have hdrop : rest.drop (min (rest.length + 1) ps - 1) = [] := by
          rw [hcs]
          simp
        simp only [fragmentGo, hb, hdrop, List.length_cons, h2]
        simp [frameLast, hflag.2, fragmentGo]
      · have hcs : min (rest.length + 1) ps = ps := Nat.min_eq_right (Nat.le_of_lt hgt)
        have hb : decide (rest.length + 1 ≤ min (rest.length + 1) ps) = false := by
          rw [hcs]
          simp
          omega
        have hdl : (rest.drop (min (rest.length + 1) ps - 1)).length ≤ f := by
          simp only [List.length_drop]
          simp at hl
          omega
        have hdne : rest.drop (min (rest.length + 1) ps - 1) ≠ [] := by
          rw [hcs]
          intro hcon
          have := congrArg List.length hcon
          simp at this
          omega
        have hrec := ih (rest.drop (min (rest.length + 1) ps - 1)) ((i + 1) % 256) hdl hdne
        have hlen1 : (rest.drop (min (rest.length + 1) ps - 1)).length = rest.length - (ps - 1) := by
          rw [hcs]
          simp
        have hn' : (rest.length - (ps - 1) + ps - 1) / ps = rest.length / ps := by
          have : rest.length - (ps - 1) + ps - 1 = rest.length := by omega
          rw [this]
        have hn : (rest.length + 1 + ps - 1) / ps = rest.length / ps + 1 := by
          have : rest.length + 1 + ps - 1 = rest.length + ps := by omega
          rw [this, Nat.add_div_right _ (by omega)]
        have hpos : 1 ≤ rest.length / ps :=
          (Nat.le_div_iff_mul_le (by omega)).mpr (by omega)
        simp only [fragmentGo, hb, List.map_cons, hrec, hlen1, hn', List.length_cons, hn]
        have hrep : List.replicate (rest.length / ps + 1 - 1) false
            = false :: List.replicate (rest.length / ps - 1) false := by
          have : rest.length / ps + 1 - 1 = (rest.length / ps - 1) + 1 := by omega
          rw [this, List.replicate_succ]
        rw [hrep]
        simp [frameLast, hflag.1]

/-- C6: for every payload and positive chunk size, `fragment_data` emits
exactly ceiling(len / payload_size) fragments (none for an empty payload),
with the is-last flag decoding to true on the final fragment and to false
on every other. -/
theorem claim_C6 (category : Nat) (data : List Nat) (ps : Nat) (hps : 1 ≤ ps) :
    (fragment_data category data ps).length = (data.length + ps - 1) / ps ∧
    (data = [] → fragment_data category data ps = []) ∧
    (data ≠ [] →
      (fragment_data category data ps).map frameLast
        = List.replicate ((data.length + ps - 1) / ps - 1) false ++ [true]) :=
  ⟨fragmentGo_length ps hps data.length data 0 le_rfl,
   fun h => by subst h; rfl,
   fun h => fragmentGo_flags ps hps data.length data 0 le_rfl h⟩

set_option maxRecDepth 8000 in
/-- Witness for C6: a 200-byte payload with 7-byte chunks yields exactly 29
fragments, the is-last flag set only on the last one. -/
theorem claim_C6_witness :
    (fragment_data 48 (List.replicate 200 1) 7).length = 29 ∧
    (fragment_data 48 (List.replicate 200 1) 7).map frameLast
      = List.replicate 28 false ++ [true] := by
  have h := claim_C6 48 (List.replicate 200 1) 7 (by decide)
  constructor
  · rw [h.1]
    decide
  · rw [h.2.2 (by decide)]
    decide

/-! Structure of the emitted fragment list. -/

/-- Chunk `k` of a payload: the `ps` bytes starting at offset `ps * k`. -/
def chunkAt (ps : Nat) (l : List Nat) (k : Nat) : List Nat :=
  (l.drop (ps * k)).take ps

/-- Shifting the payload by one chunk shifts the chunk index. -/
theorem chunkAt_drop (ps : Nat) (l : List Nat) (k : Nat) :
    chunkAt ps (l.drop ps) k = chunkAt ps l (k + 1) := by
  unfold chunkAt
  rw [List.drop_drop]
  have h : ps + ps * k = ps * (k + 1) := by ring
  rw [h]

/-- As long as at most 128 fragments are produced (so the 7-bit index mask
and the `u8` counter wrap are both invisible), the fragmentation loop
starting at counter `i` emits exactly the fragments
`header(i+k, k = n-1) :: chunk k` for `k < n`. -/
theorem fragmentGo_frames (ps : Nat) (hps : 1 ≤ ps) :
    ∀ (fuel : Nat) (l : List Nat) (i : Nat), l.length ≤ fuel →
      i + (l.length + ps - 1) / ps ≤ 128 →
      fragmentGo ps fuel l i
        = (List.range ((l.length + ps - 1) / ps)).map
            (fun k => build_fragment_header (i + k)
                (decide (k = (l.length + ps - 1) / ps - 1))
              :: chunkAt ps l k) := by
  intro fuel
  induction fuel with
  | zero =>
    intro l i hl hb
    match l with
    | [] =>
      have h0 : (0 + ps - 1) / ps = 0 := Nat.div_eq_of_lt (by omega)
      simp only [List.length_nil, h0]
      simp [fragmentGo]
    | d :: rest => simp at hl
  | succ f ih =>
    intro l i hl hb
    match l with
    | [] =>
      have h0 : (0 + ps - 1) / ps = 0 := Nat.div_eq_of_lt (by omega)
      simp only [List.length_nil, h0]
      simp [fragmentGo]
    | d :: rest =>
      rcases le_or_lt (rest.length + 1) ps with hle | hgt
      · -- a single, final fragment
        have hcs : min (rest.length + 1) ps = rest.length + 1 := Nat.min_eq_left hle
        have hn : ((d :: rest).length + ps - 1) / ps = 1 := by
          simp only [List.length_cons]
          exact Nat.div_eq_of_lt_le (by omega) (by omega)
        have hb1 : decide (rest.length + 1 ≤ min (rest.length + 1) ps) = true := by
          rw [hcs]
          simp
        have hdrop : rest.drop (min (rest.length + 1) ps - 1) = [] := by
          rw [hcs]
          simp
        have hi : i % 256 = i := Nat.mod_eq_of_lt (by omega)
        have htake : (d :: rest).take (min (rest.length + 1) ps) = d :: rest := by
          rw [hcs]
          exact List.take_of_length_le (by simp)
        have htake2 : chunkAt ps (d :: rest) 0 = d :: rest := by
          unfold chunkAt
          simp only [Nat.mul_zero, List.drop_zero]
          exact List.take_of_length_le (by simp; omega)
        rw [hn]
        simp only [fragmentGo, hb1, hdrop, hi, htake]
        simp [fragmentGo, htake2, List.range_succ]
      · -- a full chunk followed by more fragments
        have hcs : min (rest.length + 1) ps = ps := Nat.min_eq_right (Nat.le_of_lt hgt)
        have hb1 : decide (rest.length + 1 ≤ min (rest.length + 1) ps) = false := by
          rw [hcs]
          simp
          omega
        have hdl : (rest.drop (min (rest.length + 1) ps - 1)).length ≤ f := by
          simp only [List.length_drop]
          simp at hl
          omega
        have hdrop_eq : rest.drop (min (rest.length + 1) ps - 1) = (d :: rest).drop ps := by
          rw [hcs]
          have h : ps = (ps - 1) + 1 := by omega
          rw [h]
          simp
        have hlen1 : ((d :: rest).drop ps).length = rest.length + 1 - ps := by
          simp
        have hn' : (((d :: rest).drop ps).length + ps - 1) / ps = rest.length / ps := by
          rw [hlen1]
          have h : rest.length + 1 - ps + ps - 1 = rest.length := by omega
          rw [h]
        have hn : ((d :: rest).length + ps - 1) / ps = rest.length / ps + 1 := by
          simp only [List.length_cons]
          have h : rest.length + 1 + ps - 1 = rest.length + ps := by omega
          rw [h, Nat.add_div_right _ (by omega)]
        have hpos : 1 ≤ rest.length / ps :=
          (Nat.le_div_iff_mul_le (by omega)).mpr (by omega)
        have hmod : (i + 1) % 256 = i + 1 := Nat.mod_eq_of_lt (by omega)
        have hrec := ih ((d :: rest).drop ps) (i + 1) (by rw [hlen1]; simp at hl; omega)
          (by rw [hn']; omega)
        rw [hn'] at hrec
        have hi : i % 256 = i := Nat.mod_eq_of_lt (by omega)
        have htake : (d :: rest).take (min (rest.length + 1) ps) = chunkAt ps (d :: rest) 0 := by
          rw [hcs]
          unfold chunkAt
          simp
        rw [hn]
        simp only [fragmentGo, hb1, hi, hdrop_eq, hmod, hrec, htake]
        rw [List.range_succ_eq_map, List.map_cons, List.map_map]
        have hhead : decide ((0 : Nat) = rest.length / ps + 1 - 1) = false := by
          simp
          omega
        rw [hhead]
        congr 1
        apply List.map_congr_left
        intro k hk
        have hk' : k < rest.length / ps := List.mem_range.mp hk
        simp only [Function.comp]
        have h1 : i + 1 + k = i + Nat.succ k := by omega
        have h2 : decide (k = rest.length / ps - 1)
            = decide (Nat.succ k = rest.length / ps + 1 - 1) := by
          rw [decide_eq_decide]
          omega
        have h3 : chunkAt ps ((d :: rest).drop ps) k = chunkAt ps (d :: rest) (Nat.succ k) :=
          chunkAt_drop ps (d :: rest) k
        rw [h1, h2, h3]

/-- The chunks of a payload concatenate back to the payload. -/
theorem chunks_join (ps : Nat) (hps : 1 ≤ ps) :
    ∀ (n : Nat) (l : List Nat), (l.length + ps - 1) / ps = n →
      ((List.range n).map (chunkAt ps l)).flatten = l := by
  intro n
  induction n with
  | zero =>
    intro l hn
    have hlen : l.length = 0 := by
      by_contra hne
      have h1 : 1 ≤ (l.length + ps - 1) / ps :=
        (Nat.le_div_iff_mul_le (by omega)).mpr (by omega)
      omega
    have : l = [] := List.length_eq_zero.mp hlen
    subst this
    rfl
  | succ n ihn =>
    intro l hn
    have hlen : 1 ≤ l.length := by
      by_contra hne
      have h0 : l.length = 0 := by omega
      rw [h0] at hn
      have : (0 + ps - 1) / ps = 0 := Nat.div_eq_of_lt (by omega)
      omega
    have hrec : ((l.drop ps).length + ps - 1) / ps = n := by
      rcases le_or_lt l.length ps with hle | hgt
      · have h1 : (l.length + ps - 1) / ps = 1 := Nat.div_eq_of_lt_le (by omega) (by omega)
        have hn0 : n = 0 := by omega
        have h2 : (l.drop ps).length = 0 := by simp; omega
        rw [h2, hn0]
        exact Nat.div_eq_of_lt (by omega)
      · have h1 : (l.drop ps).length = l.length - ps := by simp
        have h2 : l.length - ps + ps - 1 = l.length - 1 := by omega
        have h3 : l.length + ps - 1 = (l.length - 1) + ps := by omega
        rw [h3, Nat.add_div_right _ (by omega)] at hn
        rw [h1, h2]
        omega
    have hih := ihn (l.drop ps) hrec
    rw [List.range_succ_eq_map, List.map_cons, List.map_map]
    have hcongr : (List.range n).map (chunkAt ps l ∘ Nat.succ)
        = (List.range n).map (chunkAt ps (l.drop ps)) := by
      apply List.map_congr_left
      intro k _
      simp only [Function.comp]
      exact (chunkAt_drop ps l k).symm
    rw [hcongr]
    show chunkAt ps l 0 ++ ((List.range n).map (chunkAt ps (l.drop ps))).flatten = l
    rw [hih]
    unfold chunkAt
    simp only [Nat.mul_zero, List.drop_zero]
    exact List.take_append_drop ps l

/-- Reassembly over an index list succeeds and concatenates the stored
chunks when every index is present. -/
theorem reassembleAux_all (m : Nat → Option (List Nat)) (c : Nat → List Nat) :
    ∀ js : List Nat, (∀ k ∈ js, m k = some (c k)) →
      reassembleAux m js = some ((js.map c).flatten) := by
  intro js
  induction js with
  | nil =>
    intro
    rfl
  | cons j rest ih =>
    intro h
    have hj := h j (by simp)
    have hr := ih (fun k hk => h k (by simp [hk]))
    simp [reassembleAux, hj, hr]

/-- Reassembly over an index list fails when any index is missing. -/
theorem reassembleAux_missing (m : Nat → Option (List Nat)) (j : Nat) (hm : m j = none) :
    ∀ js : List Nat, j ∈ js → reassembleAux m js = none := by
  intro js
  induction js with
  | nil =>
    intro h
    cases h
  | cons a rest ih =>
    intro h
    rcases List.mem_cons.mp h with rfl | hmem
    · simp [reassembleAux, hm]
    · unfold reassembleAux
      rw [ih hmem]
      cases m a <;> rfl

/-! Feeding fragments into a reassembly state. -/

/-- A frame whose is-last flag is clear only stores its chunk. -/
theorem addFrame_cons_nonlast (s : ReassemblyState) (h : Nat) (p : List Nat)
    (hf : (parse_fragment_header h).2 = false) :
    addFrame s (h :: p)
      = ({ s with fragments := insertFrag s.fragments (parse_fragment_header h).1 p },
         none) := by
  simp [addFrame, ReassemblyState.add_fragment, hf]

/-- Feeding distributes over append as long as no completion fires early. -/
theorem feedAll_append (xs ys : List (List Nat)) :
    ∀ s : ReassemblyState, (feedAll s xs).2 = none →
      feedAll s (xs ++ ys) = feedAll (feedAll s xs).1 ys := by
  induction xs with
  | nil =>
    intro s _
    rfl
  | cons f rest ih =>
    intro s h
    cases h2 : (addFrame s f).2 with
    | some out =>
      have e : feedAll s (f :: rest) = addFrame s f := by
        simp [feedAll, h2]
      rw [e, h2] at h
      cases h
    | none =>
      rw [List.cons_append]
      have e2 : feedAll s (f :: rest) = feedAll (addFrame s f).1 rest := by
        simp [feedAll, h2]
      have e1 : feedAll s (f :: (rest ++ ys)) = feedAll (addFrame s f).1 (rest ++ ys) := by
        simp [feedAll, h2]
      rw [e1, e2]
      exact ih (addFrame s f).1 (by rw [e2] at h; exact h)

/-- Feeding a list of non-final frames completes nothing, stores every
nonempty frame's chunk under its decoded index (when the indices are
distinct), and leaves other indices untouched. -/
theorem feedAll_store :
    ∀ (fs : List (List Nat)) (s : ReassemblyState),
      (∀ f ∈ fs, frameLast f = false) →
      (feedAll s fs).2 = none ∧
      (∀ j, j ∉ fs.map frameIdx → (feedAll s fs).1.fragments j = s.fragments j) ∧
      ((fs.map frameIdx).Nodup →
        ∀ f ∈ fs, f ≠ [] → (feedAll s fs).1.fragments (frameIdx f) = some f.tail) := by
  intro fs
  induction fs with
  | nil =>
    intro s _
    exact ⟨rfl, fun j _ => rfl, fun _ f hf _ => absurd hf (List.not_mem_nil f)⟩
  | cons f rest ih =>
    intro s hall
    have hlast : frameLast f = false := hall f (by simp)
    have htail : ∀ g ∈ rest, frameLast g = false := fun g hg => hall g (by simp [hg])
    match f with
    | [] =>
      have e : feedAll s ([] :: rest) = feedAll s rest := by
        simp [feedAll, addFrame]
      have hrec := ih s htail
      refine ⟨by rw [e]; exact hrec.1, ?_, ?_⟩
      · intro j hj
        rw [e]
        exact hrec.2.1 j (by simp at hj ⊢; exact hj.2)
      · intro hnd g hg hgne
        rw [e]
        rcases List.mem_cons.mp hg with rfl | hmem
        · exact absurd rfl hgne
        · exact hrec.2.2 (List.nodup_cons.mp hnd).2 g hmem hgne
    | h :: p =>
      have ha := addFrame_cons_nonlast s h p hlast
      have e : feedAll s ((h :: p) :: rest)
          = feedAll
              { s with fragments := insertFrag s.fragments (parse_fragment_header h).1 p }
              rest := by
        simp [feedAll, ha]
      have hrec := ih
        { s with fragments := insertFrag s.fragments (parse_fragment_header h).1 p } htail
      refine ⟨by rw [e]; exact hrec.1, ?_, ?_⟩
      · intro j hj
        simp only [List.map_cons, List.mem_cons, not_or] at hj
        rw [e, hrec.2.1 j hj.2]
        have hne : j ≠ (parse_fragment_header h).1 := hj.1
        simp [insertFrag, hne]
      · intro hnd g hg hgne
        rcases List.mem_cons.mp hg with rfl | hmem
        · have hnotin : frameIdx (h :: p) ∉ rest.map frameIdx :=
            (List.nodup_cons.mp (by simpa using hnd)).1
          rw [e, hrec.2.1 _ hnotin]
          simp [insertFrag, frameIdx]
        · rw [e]
          exact hrec.2.2 (List.nodup_cons.mp (by simpa using hnd)).2 g hmem hgne

/-- A nonempty list is its leading fragments followed by its last. -/
theorem dropLast_append_getLastD {α : Type} (d : α) (l : List α) (hne : l ≠ []) :
    l.dropLast ++ [l.getLastD d] = l := by
  induction l using List.reverseRecOn with
  | nil => exact absurd rfl hne
  | append_singleton xs x _ => rw [List.dropLast_concat, List.getLastD_concat]

/-- Definitional step of `addFrame` on a nonempty frame. -/
theorem addFrame_cons (s : ReassemblyState) (h : Nat) (p : List Nat) :
    addFrame s (h :: p)
      = s.add_fragment (parse_fragment_header h).1 p (parse_fragment_header h).2 := rfl

/-- Round trip through any permutation: feeding the non-final fragments of
a fragmented payload in any order and then the final fragment reconstructs
the payload, provided at most 128 fragments were produced. -/
theorem feed_perm (cat ps : Nat) (hps : 1 ≤ ps) (data : List Nat) (hne : data ≠ [])
    (hn128 : (data.length + ps - 1) / ps ≤ 128) (pre : List (List Nat))
    (hperm : pre.Perm (fragment_data cat data ps).dropLast) :
    (feedAll (ReassemblyState.new cat)
        (pre ++ [(fragment_data cat data ps).getLastD []])).2 = some data := by
  have hlen1 : 1 ≤ data.length := by
    cases data with
    | nil => exact absurd rfl hne
    | cons a l => simp
  set n := (data.length + ps - 1) / ps with hn_def
  have hn1 : 1 ≤ n := (Nat.le_div_iff_mul_le (by omega)).mpr (by omega)
  have hframes := fragmentGo_frames ps hps data.length data 0 le_rfl (by omega)
  set F : Nat → List Nat := fun k =>
    build_fragment_header k (decide (k = n - 1)) :: chunkAt ps data k with hF
  have hframes' : fragment_data cat data ps = (List.range n).map F := by
    rw [fragment_data, hframes, ← hn_def]
    apply List.map_congr_left
    intro k _
    simp [hF]
  have hnsucc : n = (n - 1) + 1 := by omega
  have hr : List.range n = List.range (n - 1) ++ [n - 1] := by
    conv_lhs => rw [hnsucc]
    exact List.range_succ (n - 1)
  have hsplit : fragment_data cat data ps = (List.range (n - 1)).map F ++ [F (n - 1)] := by
    rw [hframes', hr, List.map_append, List.map_cons, List.map_nil]
  have hdrop : (fragment_data cat data ps).dropLast = (List.range (n - 1)).map F := by
    rw [hsplit, List.dropLast_concat]
  have hlast : (fragment_data cat data ps).getLastD [] = F (n - 1) := by
    rw [hsplit, List.getLastD_concat]
  have hFlast : ∀ k, k < n - 1 → frameLast (F k) = false := by
    intro k hk
    have hd : decide (k = n - 1) = false := by
      simp
      omega
    have he : F k = build_fragment_header k (decide (k = n - 1)) :: chunkAt ps data k := rfl
    rw [he, hd]
    exact (hdr_flag k (by omega)).1
  have hFidx : ∀ k, k < n → frameIdx (F k) = k := by
    intro k hk
    have he : F k = build_fragment_header k (decide (k = n - 1)) :: chunkAt ps data k := rfl
    rw [he]
    cases hb : decide (k = n - 1) with
    | false => exact congrArg Prod.fst (hdr_roundtrip k (by omega)).1
    | true => exact congrArg Prod.fst (hdr_roundtrip k (by omega)).2
  have hpre_mem : ∀ f ∈ pre, ∃ k, k < n - 1 ∧ f = F k := by
    intro f hf
    have hmem : f ∈ (List.range (n - 1)).map F := by
      rw [← hdrop]
      exact hperm.mem_iff.mp hf
    obtain ⟨k, hkmem, heq⟩ := List.mem_map.mp hmem
    exact ⟨k, List.mem_range.mp hkmem, heq.symm⟩
  have hpre_last : ∀ f ∈ pre, frameLast f = false := by
    intro f hf
    obtain ⟨k, hk, rfl⟩ := hpre_mem f hf
    exact hFlast k hk
  have h1 : ((List.range (n - 1)).map F).map frameIdx = List.range (n - 1) := by
    rw [List.map_map]
    have hc : ∀ k ∈ List.range (n - 1), (frameIdx ∘ F) k = id k := by
      intro k hk
      have hk' := List.mem_range.mp hk
      simp only [Function.comp, id]
      exact hFidx k (by omega)
    rw [List.map_congr_left hc, List.map_id]
  have hkperm : (pre.map frameIdx).Perm (List.range (n - 1)) := by
    rw [← h1]
    have hp := hperm.map frameIdx
    rw [hdrop] at hp
    exact hp
  have hnd : (pre.map frameIdx).Nodup := hkperm.nodup_iff.mpr (List.nodup_range (n - 1))
  have hstore := feedAll_store pre (ReassemblyState.new cat) hpre_last
  set s1 := (feedAll (ReassemblyState.new cat) pre).1 with hs1
  have hstored : ∀ k, k < n - 1 → s1.fragments k = some (chunkAt ps data k) := by
    intro k hk
    have hfk : F k ∈ pre := by
      have hmm : F k ∈ (List.range (n - 1)).map F :=
        List.mem_map.mpr ⟨k, List.mem_range.mpr hk, rfl⟩
      rw [← hdrop] at hmm
      exact hperm.mem_iff.mpr hmm
    have hst := hstore.2.2 hnd (F k) hfk (List.cons_ne_nil _ _)
    rw [hFidx k (by omega)] at hst
    exact hst
  have happend := feedAll_append pre [(fragment_data cat data ps).getLastD []]
    (ReassemblyState.new cat) hstore.1
  rw [happend, hlast, ← hs1]
  have hdec : decide (n - 1 = n - 1) = true := by simp
  have hparse : parse_fragment_header (build_fragment_header (n - 1) true) = (n - 1, true) :=
    (hdr_roundtrip (n - 1) (by omega)).2
  have heF : F (n - 1) = build_fragment_header (n - 1) true :: chunkAt ps data (n - 1) := by
    have he : F (n - 1)
        = build_fragment_header (n - 1) (decide (n - 1 = n - 1)) :: chunkAt ps data (n - 1) := rfl
    rw [he, hdec]
  have haf : addFrame s1 (F (n - 1))
      = s1.add_fragment (n - 1) (chunkAt ps data (n - 1)) true := by
    rw [heF, addFrame_cons, hparse]
  have hfull : ∀ k ∈ List.range n,
      insertFrag s1.fragments (n - 1) (chunkAt ps data (n - 1)) k
        = some (chunkAt ps data k) := by
    intro k hk
    have hk' := List.mem_range.mp hk
    by_cases he : k = n - 1
    · subst he
      simp [insertFrag]
    · have hlt : k < n - 1 := by omega
      simp [insertFrag, he, hstored k hlt]
  have hre := reassembleAux_all (insertFrag s1.fragments (n - 1) (chunkAt ps data (n - 1)))
    (chunkAt ps data) (List.range n) hfull
  have hjoin : ((List.range n).map (chunkAt ps data)).flatten = data :=
    chunks_join ps hps n data hn_def.symm
  have hadd : s1.add_fragment (n - 1) (chunkAt ps data (n - 1)) true
      = ({ s1 with fragments := insertFrag s1.fragments (n - 1) (chunkAt ps data (n - 1)) },
         some data) := by
    simp only [ReassemblyState.add_fragment, ReassemblyState.reassemble, if_true]
    rw [← hnsucc, hre, hjoin]
  have e2 : (addFrame s1 (F (n - 1))).2 = some data := by
    rw [haf, hadd]
  simp [feedAll, e2, haf, hadd]

/-- In-order round trip: feeding the fragments exactly as emitted
reconstructs the payload, provided at most 128 fragments were produced. -/
theorem feed_inorder (cat ps : Nat) (hps : 1 ≤ ps) (data : List Nat) (hne : data ≠ [])
    (hn128 : (data.length + ps - 1) / ps ≤ 128) :
    (feedAll (ReassemblyState.new cat) (fragment_data cat data ps)).2 = some data := by
  have hfne : fragment_data cat data ps ≠ [] := by
    have hl := fragmentGo_length ps hps data.length data 0 le_rfl
    intro hcon
    rw [fragment_data] at hcon
    rw [hcon] at hl
    have hlen1 : 1 ≤ data.length := by
      cases data with
      | nil => exact absurd rfl hne
      | cons a l => simp
    have h1 : 1 ≤ (data.length + ps - 1) / ps :=
      (Nat.le_div_iff_mul_le (by omega)).mpr (by omega)
    simp at hl
    omega
  have h := feed_perm cat ps hps data hne hn128 (fragment_data cat data ps).dropLast
    (List.Perm.refl _)
  rw [dropLast_append_getLastD [] (fragment_data cat data ps) hfne] at h
  exact h

/-- C1 (amended to nonempty payloads): fragmenting a payload of length
1..896 with 7-byte chunks, or 1..8001 with 63-byte chunks, and feeding all
fragments in order into a fresh `ReassemblyState` completes with exactly
the original bytes. -/
theorem claim_C1 (cat : Nat) (data : List Nat) (hne : data ≠ []) :
    (data.length ≤ 896 →
      (feedAll (ReassemblyState.new cat) (fragment_data cat data 7)).2 = some data) ∧
    (data.length ≤ 8001 →
      (feedAll (ReassemblyState.new cat) (fragment_data cat data 63)).2 = some data) := by
  constructor
  · intro hlen
    exact feed_inorder cat 7 (by omega) data hne (by omega)
  · intro hlen
    exact feed_inorder cat 63 (by omega) data hne (by omega)

/-- Counterexample to C1 as stated: the empty payload (length 0, within the
claimed 0..896 range) fragments to zero frames, so reassembly never
completes and no result equal to the original payload is produced. -/
theorem claim_C1_counterexample :
    ([] : List Nat).length ≤ 896 ∧
    (feedAll (ReassemblyState.new 48) (fragment_data 48 [] 7)).2 ≠ some [] := by
  exact ⟨by decide, by decide⟩

/-- Witness for C1 at an 8-byte payload (two classic fragments). -/
theorem claim_C1_witness :
    (feedAll (ReassemblyState.new 48) (fragment_data 48 [1, 2, 3, 4, 5, 6, 7, 8] 7)).2
      = some [1, 2, 3, 4, 5, 6, 7, 8] :=
  (claim_C1 48 [1, 2, 3, 4, 5, 6, 7, 8] (by decide)).1 (by decide)

/-- C4: for a message of at most 128 fragments, feeding the non-final
fragments in any order and the final fragment once all of them are stored
yields the same successful reassembly as the in-order delivery. -/
theorem claim_C4 (cat ps : Nat) (hps : 1 ≤ ps) (data : List Nat) (hne : data ≠ [])
    (hn : (fragment_data cat data ps).length ≤ 128) (pre : List (List Nat))
    (hperm : pre.Perm (fragment_data cat data ps).dropLast) :
    (feedAll (ReassemblyState.new cat)
        (pre ++ [(fragment_data cat data ps).getLastD []])).2 = some data ∧
    (feedAll (ReassemblyState.new cat) (fragment_data cat data ps)).2 = some data := by
  have hl := fragmentGo_length ps hps data.length data 0 le_rfl
  have hn128 : (data.length + ps - 1) / ps ≤ 128 := by
    rw [fragment_data] at hn
    omega
  exact ⟨feed_perm cat ps hps data hne hn128 pre hperm,
    feed_inorder cat ps hps data hne hn128⟩

/-- Witness for C4: a 15-byte payload fragments into three classic frames;
delivering the first two swapped and then the final frame reconstructs the
payload. -/
theorem claim_C4_witness :
    (feedAll (ReassemblyState.new 48)
        ([[1, 8, 9, 10, 11, 12, 13, 14], [0, 1, 2, 3, 4, 5, 6, 7]]
          ++ [(fragment_data 48 [1, 2, 3, 4, 5, 6, 7, 8, 9, 10, 11, 12, 13, 14, 15] 7).getLastD []])).2
      = some [1, 2, 3, 4, 5, 6, 7, 8, 9, 10, 11, 12, 13, 14, 15] :=
  (claim_C4 48 7 (by decide) [1, 2, 3, 4, 5, 6, 7, 8, 9, 10, 11, 12, 13, 14, 15] (by decide)
    (by decide) [[1, 8, 9, 10, 11, 12, 13, 14], [0, 1, 2, 3, 4, 5, 6, 7]] (by decide)).1

/-- C3: completion is evaluated only on an is-last fragment — a non-final
`add_fragment` stores the chunk and returns no result; an is-last
`add_fragment` with any index missing below it returns no result (not an
error) while retaining the stored chunks; and a reassembly state missing
index `j` never produces a result from any sequence of frames that avoids
index `j` and whose is-last frames all sit above `j`. -/
theorem claim_C3 :
    (∀ (s : ReassemblyState) (i : Nat) (d : List Nat),
      s.add_fragment i d false
        = ({ s with fragments := insertFrag s.fragments i d }, none)) ∧
    (∀ (s : ReassemblyState) (i : Nat) (d : List Nat) (j : Nat),
      j ≤ i → j ≠ i → s.fragments j = none →
      s.add_fragment i d true
        = ({ s with fragments := insertFrag s.fragments i d }, none)) ∧
    (∀ (s : ReassemblyState) (j : Nat) (fs : List (List Nat)),
      s.fragments j = none →
      (∀ f ∈ fs, frameIdx f ≠ j ∧ (frameLast f = true → j < frameIdx f)) →
      (feedAll s fs).2 = none ∧ (feedAll s fs).1.fragments j = none) := by
  refine ⟨?_, ?_, ?_⟩
  · intro s i d
    simp [ReassemblyState.add_fragment]
  · intro s i d j hle hne hnone
    have hj : insertFrag s.fragments i d j = none := by
      simp [insertFrag, hne, hnone]
    have hmiss := reassembleAux_missing (insertFrag s.fragments i d) j hj
      (List.range (i + 1)) (List.mem_range.mpr (by omega))
    simp [ReassemblyState.add_fragment, ReassemblyState.reassemble, hmiss]
  · intro s j fs
    induction fs generalizing s with
    | nil =>
      intro hnone _
      exact ⟨rfl, hnone⟩
    | cons f rest ih =>
      intro hnone hall
      obtain ⟨hidx, hlt⟩ := hall f (by simp)
      have htail : ∀ g ∈ rest, frameIdx g ≠ j ∧ (frameLast g = true → j < frameIdx g) :=
        fun g hg => hall g (by simp [hg])
      match f with
      | [] =>
        have e : feedAll s ([] :: rest) = feedAll s rest := by
          simp [feedAll, addFrame]
        rw [e]
        exact ih s hnone htail
      | h :: p =>
        have hjne : j ≠ (parse_fragment_header h).1 := fun hc => hidx hc.symm
        have hj : insertFrag s.fragments (parse_fragment_header h).1 p j = none := by
          simp [insertFrag, hjne, hnone]
        cases hL : (parse_fragment_header h).2 with
        | false =>
          have ha := addFrame_cons_nonlast s h p hL
          have e : feedAll s ((h :: p) :: rest)
              = feedAll
                  { s with fragments := insertFrag s.fragments (parse_fragment_header h).1 p }
                  rest := by
            simp [feedAll, ha]
          rw [e]
          exact ih _ hj htail
        | true =>
          have hjlt : j < (parse_fragment_header h).1 := hlt hL
          have hmiss := reassembleAux_missing
            (insertFrag s.fragments (parse_fragment_header h).1 p) j hj
            (List.range ((parse_fragment_header h).1 + 1)) (List.mem_range.mpr (by omega))
          have ha : addFrame s (h :: p)
              = ({ s with fragments := insertFrag s.fragments (parse_fragment_header h).1 p },
                 none) := by
            rw [addFrame_cons, hL]
            simp [ReassemblyState.add_fragment, ReassemblyState.reassemble, hmiss]
          have e : feedAll s ((h :: p) :: rest)
              = feedAll
                  { s with fragments := insertFrag s.fragments (parse_fragment_header h).1 p }
                  rest := by
            simp [feedAll, ha]
          rw [e]
          exact ih _ hj htail

/-- Witness for C3: storing fragment 0 without the final flag completes
nothing; an is-last fragment at index 2 with index 1 missing completes
nothing; and withholding fragment 1 while feeding fragments 0 and 2 (the
final one) never produces a message. -/
theorem claim_C3_witness :
    (ReassemblyState.new 48).add_fragment 0 [1, 2] false
      = ({ ReassemblyState.new 48 with
            fragments := insertFrag (ReassemblyState.new 48).fragments 0 [1, 2] }, none) ∧
    (ReassemblyState.new 48).add_fragment 2 [9] true
      = ({ ReassemblyState.new 48 with
            fragments := insertFrag (ReassemblyState.new 48).fragments 2 [9] }, none) ∧
    (feedAll (ReassemblyState.new 48) [[0, 1, 2], [0x82, 9]]).2 = none :=
  ⟨claim_C3.1 (ReassemblyState.new 48) 0 [1, 2],
   claim_C3.2.1 (ReassemblyState.new 48) 2 [9] 1 (by decide) (by decide) rfl,
   (claim_C3.2.2 (ReassemblyState.new 48) 1 [[0, 1, 2], [0x82, 9]] rfl (by decide)).1⟩

/-! The publisher send loop. -/

/-- The (standard id, bytes) frame that `publish_raw` sends for an
enumerated fragment. -/
def publishFrame (category : Nat) (p : Nat × List Nat) : Nat × List Nat :=
  (build_can_id category (p.1 % 256), p.2)

/-- Shape of the send loop: with an 8-bit category the identifier check
never fires, the transmitted frames are exactly the longest successful
prefix, and the result is ok iff no send fails, otherwise the error of the
first failing frame. -/
theorem publishLoop_spec (sendOk : Nat → List Nat → Option String) (category : Nat) :
    ∀ l : List (Nat × List Nat),
      publishLoop sendOk category l
        = ((l.map (publishFrame category)).takeWhile (fun fr => (sendOk fr.1 fr.2).isNone),
           match (l.map (publishFrame category)).dropWhile
               (fun fr => (sendOk fr.1 fr.2).isNone) with
           | [] => Except.ok ()
           | fr :: _ => Except.error (CanErr.SendError ((sendOk fr.1 fr.2).getD ""))) := by
  intro l
  induction l with
  | nil => rfl
  | cons p rest ih =>
    obtain ⟨idx, frag⟩ := p
    have hle : build_can_id category (idx % 256) ≤ 0x7FF :=
      build_can_id_le category (idx % 256) (Nat.mod_lt idx (by omega))
    have hstd : standardIdNew (build_can_id category (idx % 256) % 65536)
        = some (build_can_id category (idx % 256)) := by
      rw [Nat.mod_eq_of_lt (by omega)]
      unfold standardIdNew
      rw [if_pos hle]
    cases hsend : sendOk (build_can_id category (idx % 256)) frag with
    | some e =>
      simp [publishLoop, hstd, publishFrame, List.takeWhile, List.dropWhile, hsend]
    | none =>
      simp [publishLoop, hstd, publishFrame, List.takeWhile, List.dropWhile, hsend, ih]

/-- C9: `publish_raw` sends the fragments in ascending index order (the
k-th frame carries fragment k), transmits exactly the frames preceding the
first send failure, and returns a `SendError` as soon as any send fails
(ok when none does), with nothing rolled back or re-sent. -/
theorem claim_C9 (sendOk : Nat → List Nat → Option String) (category : Nat)
    (_hc : category < 256) (data : List Nat) (ps : Nat) :
    publish_raw sendOk category data ps
      = (((fragment_data category data ps).enum.map (publishFrame category)).takeWhile
           (fun fr => (sendOk fr.1 fr.2).isNone),
         match ((fragment_data category data ps).enum.map (publishFrame category)).dropWhile
             (fun fr => (sendOk fr.1 fr.2).isNone) with
         | [] => Except.ok ()
         | fr :: _ => Except.error (CanErr.SendError ((sendOk fr.1 fr.2).getD ""))) ∧
    (fragment_data category data ps).enum.map Prod.fst
      = List.range (fragment_data category data ps).length := by
  refine ⟨publishLoop_spec sendOk category (fragment_data category data ps).enum, ?_⟩
  rw [List.range_eq_range']
  exact List.enumFrom_map_fst 0 (fragment_data category data ps)

/-- Witness for C9 with an oracle that fails on the second frame: exactly
the first frame is transmitted and the result is a `SendError`. -/
theorem claim_C9_witness :
    publish_raw (fun id _ => if id = build_can_id 48 1 then some "boom" else none) 48
        [1, 2, 3, 4, 5, 6, 7, 8, 9, 10, 11, 12, 13, 14, 15] 7
      = ([(build_can_id 48 0, [0, 1, 2, 3, 4, 5, 6, 7])],
         Except.error (CanErr.SendError "boom")) := by
  have h := claim_C9 (fun id _ => if id = build_can_id 48 1 then some "boom" else none) 48
    (by decide) [1, 2, 3, 4, 5, 6, 7, 8, 9, 10, 11, 12, 13, 14, 15] 7
  rw [h.1]
  rfl
